import Mathlib

/-!
Verification development for the `safe` secrets vault.

The encrypted record store of `src/safe/database.py` is embedded shallowly:
Python byte strings (and strings, which only ever cross the relevant
boundaries after `.encode()`) are `List Nat`; the `Dict[str, str]` item maps
are association lists of byte strings; the SQLAlchemy-backed credential table
is an explicit list of records together with the autoincrement counter; the
operating-system randomness consumed by `Crypto.Random.get_random_bytes` is an
explicit stream `Nat → List Nat` with a cursor.  The external cryptographic
primitives (PBKDF2 and AES-CBC from PyCryptodome) are parameters of every
operation, bundled in `Safe.CipherModel`, and the idealized assumptions the
design relies on are isolated in `Safe.CipherModel.IsIdeal`; a concrete
executable instance `Safe.modelCipher` witnesses their satisfiability.
All Python-level failures of `_decrypt` (`ValueError` and its subclasses,
including padding, block-alignment, decode and JSON errors) are one error
kind `DBErr.valueError`; the unique-constraint violation SQLAlchemy raises
at commit time is `DBErr.integrityError`.
-/

namespace Safe

/-- Byte strings (Python `bytes`; Python `str` is identified with its UTF-8
encoding, so `.encode()` / `.decode()` are the identity). -/
abbrev Bytes := List Nat

/-- Item maps `Dict[str, str]`: association lists in insertion order, as
Python dicts preserve insertion order. -/
abbrev Items := List (Bytes × Bytes)

/-- Error kinds surfaced by the store.  `valueError` stands for Python
`ValueError` and all its subclasses raised along `_decrypt` (incorrect IV
length from `AES.new`, non-block-aligned data from `cipher.decrypt`, bad
padding from `unpad`, `UnicodeDecodeError`, `json.JSONDecodeError`);
`integrityError` stands for `sqlalchemy.exc.IntegrityError` raised when a
commit violates the `unique=True` constraint on `Credential.name`. -/
inductive DBErr where
  | valueError
  | integrityError
deriving DecidableEq, Repr

/-- Modelled from the spec: PKCS#7 padding to the block size, the contract of
`Crypto.Util.Padding.pad` (an external library the source calls with
`AES.block_size = 16`).  Always appends between 1 and `blockSize` bytes. -/
def pkcs7pad (data : Bytes) (blockSize : Nat) : Bytes :=
  let n := blockSize - data.length % blockSize
  data ++ List.replicate n n

/-- Modelled from the spec: PKCS#7 unpadding, the contract of
`Crypto.Util.Padding.unpad`.  `none` stands for its `ValueError`: raised on
zero-length input, on input whose length is not a multiple of the block
size, on a final byte outside `1 ..= blockSize`, and on padding bytes that
do not all equal the final byte. -/
def pkcs7unpad (data : Bytes) (blockSize : Nat) : Option Bytes :=
  if data.length = 0 then none
  else if data.length % blockSize ≠ 0 then none
  else
    match data.getLast? with
    | none => none
    | some n =>
      if n < 1 ∨ n > blockSize then none
      else if data.drop (data.length - n) = List.replicate n n
      then some (data.take (data.length - n))
      else none

/-- Modelled from the spec: the deterministic serialization of the `items`
mapping (the source delegates to `json.dumps` followed by `.encode()`, an
external library).  Keys and values are emitted with every byte shifted up
by 2, a `1` byte separating key from value and a `0` byte terminating each
pair, which makes the encoding injective with `deserializeItems` as its
inverse. -/
def serializeItems : Items → Bytes
  | [] => []
  | (k, v) :: rest =>
      k.map (· + 2) ++ [1] ++ v.map (· + 2) ++ [0] ++ serializeItems rest

/-- Parser state for `deserializeItems`: the key buffer, the value buffer if
a `1` separator has been seen, the pairs finished so far, and an error
flag. -/
structure ParseSt where
  key : Bytes
  val : Option Bytes
  out : Items
  bad : Bool
deriving DecidableEq, Repr

/-- One byte of `deserializeItems`. -/
def parseStep (st : ParseSt) (b : Nat) : ParseSt :=
  if st.bad then st
  else if b = 0 then
    match st.val with
    | some v => { key := [], val := none, out := st.out ++ [(st.key, v)], bad := false }
    | none => { st with bad := true }
  else if b = 1 then
    match st.val with
    | none => { st with val := some [] }
    | some _ => { st with bad := true }
  else
    match st.val with
    | none => { st with key := st.key ++ [b - 2] }
    | some v => { st with val := some (v ++ [b - 2]) }

/-- Modelled from the spec: structural parsing of decrypted plaintext back
into an items mapping (the source delegates to `json.loads`, an external
library).  `none` stands for `json.JSONDecodeError`, raised on bytes that
are not a well-formed serialization. -/
def deserializeItems (bs : Bytes) : Option Items :=
  let st := bs.foldl parseStep ⟨[], none, [], false⟩
  if st.bad then none
  else if st.val.isSome then none
  else if st.key ≠ [] then none
  else some st.out

/-- Data accepted by `Database._encrypt` (`data: Any`, in practice a `str`
or a `dict`) and produced by `Database._decrypt` depending on its `json_`
flag. -/
inductive PlainData where
  | str (s : Bytes)
  | dict (m : Items)
deriving DecidableEq, Repr

/-- The byte string `_encrypt` actually feeds to the cipher:
`if type(data) is not str: data = json.dumps(data)` followed by
`data.encode()`. -/
def dataToBytes : PlainData → Bytes
  | .str s => s
  | .dict m => serializeItems m

/-- The external cryptographic primitives the source calls: `kdf` is
`PBKDF2(pswd, salt, 32)` from `Crypto.Protocol.KDF`; `enc` and `dec` are
AES-256-CBC encryption and decryption (`Crypto.Cipher.AES`, `MODE_CBC`)
taking key, IV and a block-aligned byte string. -/
structure CipherModel where
  kdf : Bytes → Bytes → Bytes
  enc : Bytes → Bytes → Bytes → Bytes
  dec : Bytes → Bytes → Bytes → Bytes

/-- Idealized assumptions on the external primitives, under which the
design's claims are settled: CBC decryption inverts encryption under the
same key and IV; encryption preserves length; the KDF is injective in the
password for a fixed salt (no password collisions — the negligible
probability event excluded by the spec); and decrypting under a wrong key
yields bytes whose PKCS#7 padding is invalid (the "overwhelming majority"
behavior the spec describes, again excluding the negligible false-accept). -/
structure CipherModel.IsIdeal (C : CipherModel) : Prop where
  dec_enc : ∀ k iv m, C.dec k iv (C.enc k iv m) = m
  enc_len : ∀ k iv m, (C.enc k iv m).length = m.length
  kdf_inj : ∀ s p q, C.kdf p s = C.kdf q s → p = q
  wrong_key : ∀ k k' iv m, k ≠ k' → pkcs7unpad (C.dec k' iv (C.enc k iv m)) 16 = none

/-- The persisted `Credential` row (`id` surrogate key, `name` with a
`unique=True` constraint, `items` the opaque encrypted payload). -/
structure Credential where
  id : Nat
  name : Bytes
  items : Bytes
deriving DecidableEq, Repr

/-- The store state: the session password `_pswd`, the committed rows of the
`credentials` table in insertion order, the autoincrement counter, and the
operating-system randomness as a stream of draws (`rand n` is the `n`-th
16-byte draw `get_random_bytes(16)` will return, with `rndIdx` draws already
consumed). -/
structure Database where
  pswd : Bytes
  creds : List Credential
  nextId : Nat
  rand : Nat → Bytes
  rndIdx : Nat

/-- Source `Database._encrypt`: serialize non-string data, draw a fresh
16-byte salt, let `AES.new` draw a fresh 16-byte IV, derive the key with
PBKDF2, CBC-encrypt the PKCS#7-padded plaintext and return
`salt + cipher.iv + ciphertext` together with the post-state (two random
draws consumed). -/
def Database.encryptData (C : CipherModel) (d : Database) (data : PlainData) :
    Bytes × Database :=
  let msg := dataToBytes data
  let salt := d.rand d.rndIdx
  let iv := d.rand (d.rndIdx + 1)
  let ciphertext := C.enc (C.kdf d.pswd salt) iv (pkcs7pad msg 16)
  (salt ++ iv ++ ciphertext, { d with rndIdx := d.rndIdx + 2 })

/-- Source `Database._decrypt`: split the blob as `[0:16]` salt, `[16:32]`
IV, `[32:]` cipher bytes; `AES.new` rejects an IV that is not 16 bytes
(hence any blob shorter than 32), `cipher.decrypt` rejects non-block-aligned
data, `unpad` rejects invalid padding, and with `json_=True` the plaintext
is structurally parsed, `json.loads` rejecting malformed bytes.  Every
failure is one `ValueError` kind. -/
def Database.decrypt (C : CipherModel) (d : Database) (ciphertext : Bytes)
    (json_ : Bool) : Except DBErr PlainData :=
  let salt := ciphertext.take 16
  let iv := (ciphertext.drop 16).take 16
  if iv.length ≠ 16 then .error .valueError
  else
    let ct := ciphertext.drop 32
    if ct.length % 16 ≠ 0 then .error .valueError
    else
      match pkcs7unpad (C.dec (C.kdf d.pswd salt) iv ct) 16 with
      | none => .error .valueError
      | some plaintext =>
        if json_ then
          match deserializeItems plaintext with
          | none => .error .valueError
          | some m => .ok (.dict m)
        else .ok (.str plaintext)

/-- Source `Database.count` property. -/
def Database.count (d : Database) : Nat :=
  d.creds.length

/-- Source `Database.exists`: `query(Credential).filter_by(name=name).first()
is not None` (named `existsCred` because `exists` is reserved in Lean). -/
def Database.existsCred (d : Database) (name : Bytes) : Bool :=
  (d.creds.find? (fun c => c.name = name)).isSome

/-- Source `Database.insert`: build `Credential(name=name,
items=self._encrypt(items))` (randomness is consumed here), `session.add`,
then `session.commit()`; the commit raises `IntegrityError` and persists
nothing when the `unique=True` constraint on `name` is violated, and on
success the row is appended with the next autoincrement id.  Either way the
two random draws are spent. -/
def Database.insert (C : CipherModel) (d : Database) (name : Bytes)
    (items : Items) : Except DBErr Unit × Database :=
  let (blob, d1) := d.encryptData C (.dict items)
  if d1.creds.any (fun c => c.name = name) then
    (.error .integrityError, d1)
  else
    (.ok (), { d1 with
      creds := d1.creds ++ [{ id := d1.nextId, name := name, items := blob }],
      nextId := d1.nextId + 1 })

/-- Source `Database.get`: find the first row by name; if present, decrypt
its payload with `json_=True` (propagating the `ValueError` a corrupted or
foreign payload raises) and return the row with its transient decrypted
`items_dict`; the session state is returned unchanged — `get` never adds,
deletes or commits. -/
def Database.get (C : CipherModel) (d : Database) (name : Bytes) :
    Except DBErr (Option (Credential × PlainData)) × Database :=
  match d.creds.find? (fun c => c.name = name) with
  | none => (.ok none, d)
  | some cred =>
    match d.decrypt C cred.items true with
    | .error e => (.error e, d)
    | .ok pd => (.ok (some (cred, pd)), d)

/-- Helper for `Database.get_all`: decrypt each row in iteration order,
raising at the first failure, pairing each row with its transient
`items_dict`. -/
def goGetAll (C : CipherModel) (d : Database) :
    List Credential → Except DBErr (List (Credential × PlainData))
  | [] => .ok []
  | c :: rest =>
    match d.decrypt C c.items true with
    | .error e => .error e
    | .ok pd =>
      match goGetAll C d rest with
      | .error e => .error e
      | .ok ps => .ok ((c, pd) :: ps)

/-- Source `Database.get_all`: decrypts every stored row, in persistence
iteration order. -/
def Database.get_all (C : CipherModel) (d : Database) :
    Except DBErr (List (Credential × PlainData)) :=
  goGetAll C d d.creds

/-- Commit semantics of mutating one session-attached row identified by its
primary key: replace its payload and (when given) its name, leaving every
other row and the row's `id` untouched. -/
def setById (creds : List Credential) (i : Nat) (newName : Option Bytes)
    (blob : Bytes) : List Credential :=
  creds.map fun c =>
    if c.id = i then { c with name := newName.getD c.name, items := blob } else c

/-- Targets of `update` and `delete`: the duck-typed `str | Credential`
parameter. -/
inductive CredRef where
  | byName (n : Bytes)
  | byRef (c : Credential)
deriving DecidableEq, Repr

/-- Source `Database.update` on an already-resolved row: assign
`credential.name = new_name` and `credential.items = self._encrypt(new_items)`
(randomness consumed), then `session.commit()`; the commit raises
`IntegrityError` and persists nothing when `new_name` collides with a
different row's name. -/
def Database.updateCred (C : CipherModel) (d : Database) (cred : Credential)
    (newName : Bytes) (newItems : Items) : Except DBErr Unit × Database :=
  let (blob, d1) := d.encryptData C (.dict newItems)
  if d1.creds.any (fun c => c.id ≠ cred.id ∧ c.name = newName) then
    (.error .integrityError, d1)
  else
    (.ok (), { d1 with creds := setById d1.creds cred.id (some newName) blob })

/-- Source `Database.update`: `if type(credential) is str: credential =
self.get(credential)`, then `if credential is not None:` mutate and commit —
a name that resolves to no row returns silently with no effect. -/
def Database.update (C : CipherModel) (d : Database) (target : CredRef)
    (newName : Bytes) (newItems : Items) : Except DBErr Unit × Database :=
  match target with
  | .byRef c => d.updateCred C c newName newItems
  | .byName n =>
    match (d.get C n).1 with
    | .error e => (.error e, d)
    | .ok none => (.ok (), d)
    | .ok (some (c, _)) => d.updateCred C c newName newItems

/-- Source `Database.delete`: same resolution rule; `session.delete` removes
the row with the resolved primary key; a name that resolves to no row
returns silently with no effect. -/
def Database.delete (C : CipherModel) (d : Database) (target : CredRef) :
    Except DBErr Unit × Database :=
  match target with
  | .byRef c => (.ok (), { d with creds := d.creds.filter (fun x => x.id ≠ c.id) })
  | .byName n =>
    match (d.get C n).1 with
    | .error e => (.error e, d)
    | .ok none => (.ok (), d)
    | .ok (some (c, _)) =>
      (.ok (), { d with creds := d.creds.filter (fun x => x.id ≠ c.id) })

/-- One iteration of the `change_pswd` loop: `credential.items =
self._encrypt(credential.items_dict)` for the row with the given primary
key. -/
def reencryptOne (C : CipherModel) (d : Database) (i : Nat) (pd : PlainData) :
    Database :=
  let (blob, d1) := d.encryptData C pd
  { d1 with creds := setById d1.creds i none blob }

/-- The `change_pswd` re-encryption loop over the decrypted rows. -/
def reencrypt (C : CipherModel) : Database → List (Credential × PlainData) → Database
  | d, [] => d
  | d, (c, pd) :: rest => reencrypt C (reencryptOne C d c.id pd) rest

/-- Source `Database.change_pswd`: `credentials = self.get_all()` decrypts
every row under the current password (raising if any fails), then
`self._pswd = new_pswd` adopts the new password, then the loop re-encrypts
every row's `items_dict` — already under the new password — and a single
`session.commit()` persists all of them. -/
def Database.change_pswd (C : CipherModel) (d : Database) (newPswd : Bytes) :
    Except DBErr Unit × Database :=
  match d.get_all C with
  | .error e => (.error e, d)
  | .ok ps => (.ok (), reencrypt C { d with pswd := newPswd } ps)

/-- The vault as the CLI sees it: the store plus the separately persisted
master-password hash file written by `auth.py`. -/
structure Vault where
  db : Database
  storedHash : Bytes

/-- Modelled from the spec: `auth.create_pswd` (in `src/safe/auth.py`, which
is outside the embedded core) writes `bcrypt.hashpw(pswd.encode(),
bcrypt.gensalt())` to the password file and returns the password; `H` is the
external bcrypt hash. -/
def createPswdHash (H : Bytes → Bytes) (v : Vault) (newPswd : Bytes) : Vault :=
  { v with storedHash := H newPswd }

/-- Source `change_password_command` in `src/safe/main.py`: first
`create_pswd` writes the new authentication hash to the password file, and
only then is `db.change_pswd(new_pswd)` called to re-encrypt the records. -/
def change_password_command (C : CipherModel) (H : Bytes → Bytes) (v : Vault)
    (newPswd : Bytes) : Except DBErr Unit × Vault :=
  let v1 := createPswdHash H v newPswd
  let (r, db2) := v1.db.change_pswd C newPswd
  (r, { v1 with db := db2 })

/-! ### A concrete executable instance of the external primitives

Used only to witness that the idealized assumptions are satisfiable and to
evaluate the operations on concrete inputs. -/

/-- An injective code of byte strings into the naturals, via the Cantor
pairing function. -/
def natListCode : Bytes → Nat
  | [] => 0
  | b :: rest => Nat.pair b (natListCode rest) + 1

theorem natListCode_inj : Function.Injective natListCode := by
  intro a b h
  induction a generalizing b with
  | nil =>
    cases b with
    | nil => rfl
    | cons y ys => simp [natListCode] at h
  | cons x xs ih =>
    cases b with
    | nil => simp [natListCode] at h
    | cons y ys =>
      simp only [natListCode, Nat.add_right_cancel_iff, Nat.pair_eq_pair] at h
      rw [h.1, ih h.2]

/-- A concrete model of the external primitives: the derived key codes the
pair (password, salt); each plaintext byte is paired with the key's code, so
decryption under the matching key recovers the byte and decryption under any
other key yields the invalid padding byte 17. -/
def modelCipher : CipherModel where
  kdf := fun p salt => [Nat.pair (natListCode p) (natListCode salt)]
  enc := fun k _iv m => m.map fun b => Nat.pair b (natListCode k)
  dec := fun k _iv c => c.map fun b =>
    if (Nat.unpair b).2 = natListCode k then (Nat.unpair b).1 else 17

/-- Unpadding a run of the byte 17 always fails: 17 exceeds the block
size. -/
theorem pkcs7unpad_const17 (l : Bytes) :
    pkcs7unpad (l.map (fun _ => 17)) 16 = none := by
  rcases Nat.eq_zero_or_pos l.length with h0 | hpos
  · rw [List.length_eq_zero] at h0
    subst h0
    rfl
  · have hmap : l.map (fun _ => 17) = List.replicate l.length 17 :=
      List.map_const' l 17
    rw [hmap]
    obtain ⟨n, hn⟩ : ∃ n, l.length = n + 1 := ⟨l.length - 1, by omega⟩
    rw [hn]
    unfold pkcs7unpad
    have hlast : (List.replicate (n + 1) (17 : Nat)).getLast? = some 17 := by
      rw [List.replicate_succ']
      exact List.getLast?_concat _
    simp only [List.length_replicate, hlast]
    by_cases hm : (n + 1) % 16 = 0
    · simp [hm]
    · simp [hm]

theorem modelCipher_ideal : modelCipher.IsIdeal := by
  constructor
  · intro k iv m
    simp [modelCipher, List.map_map, Function.comp_def, Nat.unpair_pair]
  · intro k iv m
    simp [modelCipher]
  · intro s p q h
    simp only [modelCipher, List.cons.injEq, and_true, Nat.pair_eq_pair] at h
    exact natListCode_inj h
  · intro k k' iv m hk
    have hcode : natListCode k ≠ natListCode k' := fun h => hk (natListCode_inj h)
    have : modelCipher.dec k' iv (modelCipher.enc k iv m) = m.map (fun _ => 17) := by
      simp only [modelCipher, List.map_map, Function.comp_def]
      exact List.map_congr_left fun b _ => by simp [Nat.unpair_pair, hcode]
    rw [this]
    exact pkcs7unpad_const17 m

/-- A concrete model of the bcrypt hash used by the witnesses. -/
def modelHash (p : Bytes) : Bytes :=
  [natListCode p + 1]

/-- A concrete injective, 16-byte random stream used by the witnesses. -/
def modelRand (n : Nat) : Bytes :=
  List.replicate 16 n

theorem modelRand_inj : Function.Injective modelRand := by
  intro a b h
  have := congrArg List.head? h
  simpa [modelRand, List.replicate_succ] using this

theorem modelRand_len (n : Nat) : (modelRand n).length = 16 := by
  simp [modelRand]

/-! ### Properties of padding -/

theorem pkcs7pad_length (data : Bytes) :
    (pkcs7pad data 16).length = data.length + (16 - data.length % 16) := by
  simp [pkcs7pad]

theorem pkcs7pad_length_mod (data : Bytes) :
    (pkcs7pad data 16).length % 16 = 0 := by
  rw [pkcs7pad_length]
  omega

theorem pkcs7unpad_pad (data : Bytes) :
    pkcs7unpad (pkcs7pad data 16) 16 = some data := by
  have hmod : data.length % 16 < 16 := Nat.mod_lt _ (by omega)
  set n := 16 - data.length % 16 with hn
  have hn1 : 1 ≤ n := by omega
  have hn16 : n ≤ 16 := by omega
  have hlen : (pkcs7pad data 16).length = data.length + n := by
    simp [pkcs7pad]
  have hmod0 : (data.length + n) % 16 = 0 := by omega
  have hrepl : (List.replicate n (n : Nat)) ≠ [] := by
    intro h
    have := congrArg List.length h
    simp at this
    omega
  have hrep_last : (List.replicate n (n : Nat)).getLast? = some n := by
    obtain ⟨m, hm⟩ : ∃ m, n = m + 1 := ⟨n - 1, by omega⟩
    rw [hm, List.replicate_succ']
    exact List.getLast?_concat _
  have hlast : (pkcs7pad data 16).getLast? = some n := by
    show (data ++ List.replicate n n).getLast? = some n
    rw [List.getLast?_append, hrep_last]
    rfl
  have hdrop : (pkcs7pad data 16).drop ((pkcs7pad data 16).length - n) =
      List.replicate n n := by
    rw [hlen]
    have : data.length + n - n = data.length := by omega
    rw [this]
    unfold pkcs7pad
    rw [← hn, List.drop_left]
  have htake : (pkcs7pad data 16).take ((pkcs7pad data 16).length - n) = data := by
    rw [hlen]
    have : data.length + n - n = data.length := by omega
    rw [this]
    unfold pkcs7pad
    rw [← hn, List.take_left]
  unfold pkcs7unpad
  rw [hlast, hlen]
  have hne0 : ¬ (data.length + n = 0) := by omega
  simp only [hne0, if_false, hmod0, ne_eq, not_true_eq_false, if_false]
  have hok : ¬ (n < 1 ∨ n > 16) := by omega
  rw [if_neg hok, ← hlen, hdrop, if_pos rfl, htake]

/-! ### Properties of serialization -/

theorem foldl_parse_key (s : Bytes) : ∀ (buf : Bytes) (out : Items),
    (s.map (· + 2)).foldl parseStep ⟨buf, none, out, false⟩ =
      ⟨buf ++ s, none, out, false⟩ := by
  induction s with
  | nil => intro buf out; simp
  | cons b rest ih =>
    intro buf out
    have hb0 : ¬ (b + 2 = 0) := by omega
    have hb1 : ¬ (b + 2 = 1) := by omega
    simp only [List.map_cons, List.foldl_cons, parseStep, Bool.false_eq_true,
      if_false, hb0, hb1]
    have : b + 2 - 2 = b := by omega
    rw [this, ih]
    simp

theorem foldl_parse_val (s : Bytes) : ∀ (buf v : Bytes) (out : Items),
    (s.map (· + 2)).foldl parseStep ⟨buf, some v, out, false⟩ =
      ⟨buf, some (v ++ s), out, false⟩ := by
  induction s with
  | nil => intro buf v out; simp
  | cons b rest ih =>
    intro buf v out
    have hb0 : ¬ (b + 2 = 0) := by omega
    have hb1 : ¬ (b + 2 = 1) := by omega
    simp only [List.map_cons, List.foldl_cons, parseStep, Bool.false_eq_true,
      if_false, hb0, hb1]
    have : b + 2 - 2 = b := by omega
    rw [this, ih]
    simp

theorem foldl_parse_serialize (m : Items) : ∀ (out : Items),
    (serializeItems m).foldl parseStep ⟨[], none, out, false⟩ =
      ⟨[], none, out ++ m, false⟩ := by
  induction m with
  | nil => intro out; simp [serializeItems]
  | cons kv rest ih =>
    intro out
    obtain ⟨k, v⟩ := kv
    have hsplit : serializeItems ((k, v) :: rest) =
        k.map (· + 2) ++ ([1] ++ (v.map (· + 2) ++ ([0] ++ serializeItems rest))) := by
      simp [serializeItems]
    rw [hsplit, List.foldl_append, foldl_parse_key, List.foldl_append]
    have s1 : ([1] : Bytes).foldl parseStep ⟨[] ++ k, none, out, false⟩ =
        ⟨k, some [], out, false⟩ := by
      simp [parseStep]
    rw [s1, List.foldl_append, foldl_parse_val, List.foldl_append]
    have s2 : ([0] : Bytes).foldl parseStep ⟨k, some ([] ++ v), out, false⟩ =
        ⟨[], none, out ++ [(k, v)], false⟩ := by
      simp [parseStep]
    rw [s2, ih]
    simp

theorem deserialize_serialize (m : Items) :
    deserializeItems (serializeItems m) = some m := by
  unfold deserializeItems
  rw [foldl_parse_serialize m []]
  simp

/-! ### Decomposition of the ciphertext blob -/

theorem blob_take16 (salt rest : Bytes) (h : salt.length = 16) :
    (salt ++ rest).take 16 = salt := by
  rw [← h, List.take_left]

theorem blob_drop16 (salt rest : Bytes) (h : salt.length = 16) :
    (salt ++ rest).drop 16 = rest := by
  rw [← h, List.drop_left]

theorem blob_drop32 (salt iv ct : Bytes) (hs : salt.length = 16)
    (hiv : iv.length = 16) : (salt ++ iv ++ ct).drop 32 = ct := by
  rw [List.append_assoc]
  have h32 : (32 : Nat) = 16 + 16 := by omega
  rw [h32, ← List.drop_drop, blob_drop16 _ _ hs, blob_drop16 _ _ hiv]

theorem blob_iv (salt iv ct : Bytes) (hs : salt.length = 16)
    (hiv : iv.length = 16) : ((salt ++ iv ++ ct).drop 16).take 16 = iv := by
  rw [List.append_assoc, blob_drop16 _ _ hs, blob_take16 _ _ hiv]

theorem blob_salt (salt iv ct : Bytes) (hs : salt.length = 16) :
    (salt ++ iv ++ ct).take 16 = salt := by
  rw [List.append_assoc, blob_take16 _ _ hs]

/-! ### Behaviour of `_encrypt` and `_decrypt` -/

theorem Database.encryptData_fst (C : CipherModel) (d : Database) (data : PlainData) :
    (d.encryptData C data).1 =
      d.rand d.rndIdx ++ d.rand (d.rndIdx + 1) ++
        C.enc (C.kdf d.pswd (d.rand d.rndIdx)) (d.rand (d.rndIdx + 1))
          (pkcs7pad (dataToBytes data) 16) :=
  rfl

theorem Database.encryptData_snd (C : CipherModel) (d : Database) (data : PlainData) :
    (d.encryptData C data).2 = { d with rndIdx := d.rndIdx + 2 } :=
  rfl

/-- On a well-formed blob decomposition, `_decrypt` reduces to the block
check, the unpad check and the structural parse. -/
theorem Database.decrypt_parts (C : CipherModel) (d : Database)
    (salt iv ct : Bytes) (js : Bool) (hs : salt.length = 16)
    (hiv : iv.length = 16) :
    d.decrypt C (salt ++ iv ++ ct) js =
      if ct.length % 16 ≠ 0 then .error .valueError
      else
        match pkcs7unpad (C.dec (C.kdf d.pswd salt) iv ct) 16 with
        | none => .error .valueError
        | some plaintext =>
          if js then
            match deserializeItems plaintext with
            | none => .error .valueError
            | some m => .ok (.dict m)
          else .ok (.str plaintext) := by
  unfold Database.decrypt
  rw [blob_salt _ _ _ hs, blob_iv _ _ _ hs hiv, blob_drop32 _ _ _ hs hiv]
  rw [if_neg (by rw [hiv]; omega)]

/-- Decrypting a blob encrypted under the same password recovers the padded
plaintext. -/
theorem Database.decrypt_enc_raw (C : CipherModel) (hC : C.IsIdeal)
    (d : Database) (salt iv msg : Bytes) (hs : salt.length = 16)
    (hiv : iv.length = 16) :
    d.decrypt C (salt ++ iv ++ C.enc (C.kdf d.pswd salt) iv (pkcs7pad msg 16))
      false = .ok (.str msg) := by
  rw [Database.decrypt_parts C d _ _ _ _ hs hiv]
  rw [if_neg (by rw [hC.enc_len, pkcs7pad_length]; omega)]
  rw [hC.dec_enc, pkcs7unpad_pad]
  simp

/-- Decrypting with the JSON flag a blob encrypting a serialized items map
under the same password recovers the map. -/
theorem Database.decrypt_enc_dict (C : CipherModel) (hC : C.IsIdeal)
    (d : Database) (salt iv : Bytes) (m : Items) (hs : salt.length = 16)
    (hiv : iv.length = 16) :
    d.decrypt C
      (salt ++ iv ++ C.enc (C.kdf d.pswd salt) iv (pkcs7pad (serializeItems m) 16))
      true = .ok (.dict m) := by
  rw [Database.decrypt_parts C d _ _ _ _ hs hiv]
  rw [if_neg (by rw [hC.enc_len, pkcs7pad_length]; omega)]
  rw [hC.dec_enc, pkcs7unpad_pad]
  simp [deserialize_serialize]

/-- Decrypting a blob encrypted under a key different from the one the
session password derives fails with the single `ValueError` kind. -/
theorem Database.decrypt_enc_wrongKey (C : CipherModel) (hC : C.IsIdeal)
    (d : Database) (salt iv msg : Bytes) (kEnc : Bytes) (js : Bool)
    (hs : salt.length = 16) (hiv : iv.length = 16)
    (hk : kEnc ≠ C.kdf d.pswd salt) :
    d.decrypt C (salt ++ iv ++ C.enc kEnc iv (pkcs7pad msg 16)) js =
      .error .valueError := by
  rw [Database.decrypt_parts C d _ _ _ _ hs hiv]
  rw [if_neg (by rw [hC.enc_len, pkcs7pad_length]; omega)]
  rw [hC.wrong_key kEnc (C.kdf d.pswd salt) iv _ hk]

/-- `_decrypt` with the JSON flag only ever returns an items map. -/
theorem Database.decrypt_true_dict (C : CipherModel) (d : Database)
    (ct : Bytes) (pd : PlainData) (h : d.decrypt C ct true = .ok pd) :
    ∃ m, pd = .dict m := by
  unfold Database.decrypt at h
  dsimp only at h
  split at h
  · simp at h
  · split at h
    · simp at h
    · split at h
      · simp at h
      · rw [if_pos rfl] at h
        split at h
        · simp at h
        · simp only [Except.ok.injEq] at h
          exact ⟨_, h.symm⟩

/-- `_decrypt` only depends on the session password component of the
state. -/
theorem Database.decrypt_pswd_eq (C : CipherModel) (d d' : Database)
    (hp : d.pswd = d'.pswd) (ct : Bytes) (js : Bool) :
    d.decrypt C ct js = d'.decrypt C ct js := by
  unfold Database.decrypt
  rw [hp]

/-! ### Claim theorems -/

/-- C1: for every password (session state) and every item map `M`,
decrypting with the JSON flag the blob produced by encrypting the
serialized form of `M` under the same password deserializes back to a map
equal to `M` — under the ideal assumptions on the external primitives and
16-byte random draws. -/
theorem c1_encrypt_decrypt_roundtrip (C : CipherModel) (hC : C.IsIdeal)
    (d : Database) (M : Items)
    (hs : (d.rand d.rndIdx).length = 16)
    (hiv : (d.rand (d.rndIdx + 1)).length = 16) :
    d.decrypt C (d.encryptData C (.dict M)).1 true = .ok (.dict M) := by
  rw [Database.encryptData_fst]
  exact Database.decrypt_enc_dict C hC d _ _ M hs hiv

/-- Witness for C1 at a concrete store, map and model. -/
theorem c1_encrypt_decrypt_roundtrip_witness :
    modelCipher.IsIdeal ∧
    (modelRand 0).length = 16 ∧ (modelRand 1).length = 16 ∧
    Database.decrypt modelCipher ⟨[5], [], 0, modelRand, 0⟩
      ((Database.encryptData modelCipher ⟨[5], [], 0, modelRand, 0⟩
        (.dict [([3], [4])])).1) true = .ok (.dict [([3], [4])]) :=
  ⟨modelCipher_ideal, modelRand_len 0, modelRand_len 1,
    c1_encrypt_decrypt_roundtrip modelCipher modelCipher_ideal
      ⟨[5], [], 0, modelRand, 0⟩ [([3], [4])] (modelRand_len 0) (modelRand_len 1)⟩

/-- C5 (amended): the blob returned by `_encrypt` has bytes `[0:16]` equal
to the salt, `[16:32]` equal to the IV and `[32:]` equal to the cipher
output; the cipher output's length is the plaintext length plus a full
PKCS#7 pad, i.e. rounded up to the next multiple of 16 with at least one
padding byte always added (so a block-aligned plaintext gains a whole extra
block — not merely "rounded up to the block size" as the claim stated). -/
theorem c5_blob_layout (C : CipherModel) (hC : C.IsIdeal) (d : Database)
    (data : PlainData)
    (hs : (d.rand d.rndIdx).length = 16)
    (hiv : (d.rand (d.rndIdx + 1)).length = 16) :
    (d.encryptData C data).1.take 16 = d.rand d.rndIdx ∧
    ((d.encryptData C data).1.drop 16).take 16 = d.rand (d.rndIdx + 1) ∧
    (d.encryptData C data).1.drop 32 =
      C.enc (C.kdf d.pswd (d.rand d.rndIdx)) (d.rand (d.rndIdx + 1))
        (pkcs7pad (dataToBytes data) 16) ∧
    ((d.encryptData C data).1.drop 32).length =
      (dataToBytes data).length + (16 - (dataToBytes data).length % 16) := by
  rw [Database.encryptData_fst]
  refine ⟨blob_salt _ _ _ hs, blob_iv _ _ _ hs hiv, blob_drop32 _ _ _ hs hiv, ?_⟩
  rw [blob_drop32 _ _ _ hs hiv, hC.enc_len, pkcs7pad_length]

/-- Witness for C5 at a concrete store and model. -/
theorem c5_blob_layout_witness :
    modelCipher.IsIdeal ∧
    (modelRand 0).length = 16 ∧ (modelRand 1).length = 16 ∧
    ((Database.encryptData modelCipher ⟨[5], [], 0, modelRand, 0⟩
        (.str [9, 9, 9])).1.take 16 = modelRand 0 ∧
      ((Database.encryptData modelCipher ⟨[5], [], 0, modelRand, 0⟩
        (.str [9, 9, 9])).1.drop 16).take 16 = modelRand 1 ∧
      (Database.encryptData modelCipher ⟨[5], [], 0, modelRand, 0⟩
        (.str [9, 9, 9])).1.drop 32 =
        modelCipher.enc (modelCipher.kdf [5] (modelRand 0)) (modelRand 1)
          (pkcs7pad (dataToBytes (.str [9, 9, 9])) 16) ∧
      ((Database.encryptData modelCipher ⟨[5], [], 0, modelRand, 0⟩
        (.str [9, 9, 9])).1.drop 32).length =
        (dataToBytes (.str [9, 9, 9])).length +
          (16 - (dataToBytes (.str [9, 9, 9])).length % 16)) :=
  ⟨modelCipher_ideal, modelRand_len 0, modelRand_len 1,
    c5_blob_layout modelCipher modelCipher_ideal ⟨[5], [], 0, modelRand, 0⟩
      (.str [9, 9, 9]) (modelRand_len 0) (modelRand_len 1)⟩

/-- Counterexample to C5 as stated: for the 16-byte plaintext
`replicate 16 7` — already a multiple of the cipher block size, so its
length "rounded up to the cipher block size" is 16 — the cipher output of
`_encrypt` has 32 bytes, because PKCS#7 always appends at least one padding
byte. -/
theorem c5_counterexample :
    ¬ (((Database.encryptData modelCipher ⟨[5], [], 0, modelRand, 0⟩
        (.str (List.replicate 16 7))).1.drop 32).length =
      16 * (((List.replicate 16 (7 : Nat)).length + 16 - 1) / 16)) := by
  have h : ((Database.encryptData modelCipher ⟨[5], [], 0, modelRand, 0⟩
      (.str (List.replicate 16 7))).1.drop 32).length = 32 := by
    rw [Database.encryptData_fst,
      blob_drop32 _ _ _ (modelRand_len 0) (modelRand_len 1),
      modelCipher_ideal.enc_len, pkcs7pad_length]
    simp [dataToBytes]
  rw [h]
  simp

/-- C9: `get` is an idempotent read: it returns the store state unchanged
(no stored payload, name or id changes — the source never adds, deletes or
commits there), so calling it twice returns equal results. -/
theorem c9_get_idempotent (C : CipherModel) (d : Database) (name : Bytes) :
    (d.get C name).2 = d ∧
    ((d.get C name).2.get C name).1 = (d.get C name).1 := by
  have hstate : (d.get C name).2 = d := by
    unfold Database.get
    split
    · rfl
    · split <;> rfl
  exact ⟨hstate, by rw [hstate]⟩

/-- C7 (amended): when the name lookup finds no matching record, `update`
and `delete` return silently with no effect — no `NotFoundError`-style
failure is raised (the source's `if credential is not None:` guard makes the
absent case a silent no-op). -/
theorem c7_silent_noop (C : CipherModel) (d : Database) (name : Bytes)
    (h : d.creds.find? (fun c => c.name = name) = none)
    (newName : Bytes) (newItems : Items) :
    d.update C (.byName name) newName newItems = (.ok (), d) ∧
    d.delete C (.byName name) = (.ok (), d) := by
  have hget : d.get C name = (.ok none, d) := by
    unfold Database.get
    rw [h]
  constructor
  · unfold Database.update
    dsimp only
    rw [hget]
  · unfold Database.delete
    dsimp only
    rw [hget]

/-- Witness for C7 at a concrete store with no record named `[120]`. -/
theorem c7_silent_noop_witness :
    (Database.creds ⟨[5], [], 0, modelRand, 0⟩).find? (fun c => c.name = [120]) = none ∧
    Database.update modelCipher ⟨[5], [], 0, modelRand, 0⟩ (.byName [120]) [121] [([1], [2])]
      = (.ok (), ⟨[5], [], 0, modelRand, 0⟩) ∧
    Database.delete modelCipher ⟨[5], [], 0, modelRand, 0⟩ (.byName [120])
      = (.ok (), ⟨[5], [], 0, modelRand, 0⟩) :=
  ⟨rfl,
    (c7_silent_noop modelCipher ⟨[5], [], 0, modelRand, 0⟩ [120] rfl [121] [([1], [2])]).1,
    (c7_silent_noop modelCipher ⟨[5], [], 0, modelRand, 0⟩ [120] rfl [121] [([1], [2])]).2⟩

/-- Counterexample to C7 as stated: on a store with no record named `[120]`,
`update` returns success and leaves the store untouched — it silently
returns without effect instead of failing with a `NotFoundError`. -/
theorem c7_counterexample :
    (Database.update modelCipher ⟨[5], [], 0, modelRand, 0⟩ (.byName [120])
        [121] [([1], [2])]).1 = .ok () ∧
    (Database.update modelCipher ⟨[5], [], 0, modelRand, 0⟩ (.byName [120])
        [121] [([1], [2])]).2 = ⟨[5], [], 0, modelRand, 0⟩ ∧
    (Database.delete modelCipher ⟨[5], [], 0, modelRand, 0⟩ (.byName [120])).1 = .ok () :=
  ⟨rfl, rfl, rfl⟩

/-- Helper: `existsCred` as an existence statement over the row list. -/
theorem existsCred_any (d : Database) (name : Bytes) (h : d.existsCred name = true) :
    d.creds.any (fun c => c.name = name) = true := by
  rw [List.any_eq_true]
  rw [Database.existsCred, List.find?_isSome] at h
  obtain ⟨x, hx, hp⟩ := h
  exact ⟨x, hx, hp⟩

/-- Helper: a name that does not exist matches no row. -/
theorem existsCred_not_any (d : Database) (name : Bytes)
    (h : d.existsCred name = false) :
    d.creds.any (fun c => c.name = name) = false := by
  rw [Database.existsCred] at h
  have hnone : d.creds.find? (fun c => c.name = name) = none :=
    Option.not_isSome_iff_eq_none.mp (fun hs => Bool.false_ne_true (h ▸ hs))
  have hall := List.find?_eq_none.mp hnone
  rcases hb : d.creds.any (fun c => c.name = name) with _ | _
  · rfl
  · rw [List.any_eq_true] at hb
    obtain ⟨x, hx, hp⟩ := hb
    exact absurd hp (hall x hx)

/-- C3 (amended): inserting a name that already exists fails (with the
persistence layer's unique-constraint `IntegrityError` at commit time) and
leaves the stored rows — hence `count` — unchanged; but the uniqueness check
happens at commit, after `_encrypt` has already run: the two random draws
for the salt and IV are consumed even by the failing insert. -/
theorem c3_insert_duplicate (C : CipherModel) (d : Database) (name : Bytes)
    (items : Items) (h : d.existsCred name = true) :
    (d.insert C name items).1 = .error .integrityError ∧
    (d.insert C name items).2.creds = d.creds ∧
    (d.insert C name items).2.count = d.count ∧
    (d.insert C name items).2.rndIdx = d.rndIdx + 2 := by
  have hany := existsCred_any d name h
  unfold Database.insert Database.encryptData
  dsimp only
  rw [if_pos hany]
  exact ⟨rfl, rfl, rfl, rfl⟩

/-- Witness for C3 at a concrete store holding a record named `[7]`. -/
theorem c3_insert_duplicate_witness :
    Database.existsCred ⟨[5], [⟨0, [7], [1, 2]⟩], 1, modelRand, 0⟩ [7] = true ∧
    (Database.insert modelCipher ⟨[5], [⟨0, [7], [1, 2]⟩], 1, modelRand, 0⟩
        [7] [([3], [4])]).1 = .error .integrityError ∧
    (Database.insert modelCipher ⟨[5], [⟨0, [7], [1, 2]⟩], 1, modelRand, 0⟩
        [7] [([3], [4])]).2.count = Database.count ⟨[5], [⟨0, [7], [1, 2]⟩], 1, modelRand, 0⟩ :=
  ⟨rfl,
    (c3_insert_duplicate modelCipher ⟨[5], [⟨0, [7], [1, 2]⟩], 1, modelRand, 0⟩
      [7] [([3], [4])] rfl).1,
    (c3_insert_duplicate modelCipher ⟨[5], [⟨0, [7], [1, 2]⟩], 1, modelRand, 0⟩
      [7] [([3], [4])] rfl).2.2.1⟩

/-- Counterexample to C3 as stated: the claim requires the uniqueness check
to happen before any encryption (check-then-insert), so a failing duplicate
insert would consume no randomness; but on a store already holding the name
`[7]`, the failing `insert` still advances the random-stream cursor by the
two draws `_encrypt` makes for the fresh salt and IV — encryption happens
before the uniqueness failure. -/
theorem c3_counterexample :
    (Database.insert modelCipher ⟨[5], [⟨0, [7], [1, 2]⟩], 1, modelRand, 0⟩
        [7] [([3], [4])]).2.rndIdx ≠
      Database.rndIdx ⟨[5], [⟨0, [7], [1, 2]⟩], 1, modelRand, 0⟩ := by
  decide

/-- C8 (amended): the core store performs no defensive validation of names
or item keys: `insert` with an empty name — and an item map containing an
empty key — succeeds whenever the name is not already taken, persisting the
record (non-emptiness is enforced only by the CLI prompt validators outside
the core). -/
theorem c8_no_validation (C : CipherModel) (d : Database) (items : Items)
    (h : d.existsCred [] = false) :
    (d.insert C [] items).1 = .ok () ∧
    (d.insert C [] items).2.count = d.count + 1 := by
  have hany := existsCred_not_any d [] h
  unfold Database.insert Database.encryptData
  dsimp only
  rw [if_neg (by rw [hany]; exact Bool.false_ne_true)]
  refine ⟨rfl, ?_⟩
  show (d.creds ++ [_]).length = d.creds.length + 1
  simp

/-- Witness for C8: on an empty store, inserting the empty name with the
item map holding one empty key succeeds and bumps the count. -/
theorem c8_no_validation_witness :
    Database.existsCred ⟨[5], [], 0, modelRand, 0⟩ [] = false ∧
    (Database.insert modelCipher ⟨[5], [], 0, modelRand, 0⟩ [] [([], [])]).1 = .ok () ∧
    (Database.insert modelCipher ⟨[5], [], 0, modelRand, 0⟩ [] [([], [])]).2.count =
      Database.count ⟨[5], [], 0, modelRand, 0⟩ + 1 :=
  ⟨rfl,
    (c8_no_validation modelCipher ⟨[5], [], 0, modelRand, 0⟩ [([], [])] rfl).1,
    (c8_no_validation modelCipher ⟨[5], [], 0, modelRand, 0⟩ [([], [])] rfl).2⟩

/-- Counterexample to C8 as stated: `insert` called on an empty store with
an empty credential name and an item map containing an empty key does not
fail with a validation error — it succeeds and persists the record. -/
theorem c8_counterexample :
    (Database.insert modelCipher ⟨[5], [], 0, modelRand, 0⟩ [] [([], [])]).1 = .ok () ∧
    (Database.insert modelCipher ⟨[5], [], 0, modelRand, 0⟩ [] [([], [])]).2.count = 1 :=
  ⟨rfl, rfl⟩

/-- Helper: replacing a row's payload and name by primary key never changes
the sequence of row ids. -/
theorem setById_id_map (cs : List Credential) (i : Nat) (nn : Option Bytes)
    (blob : Bytes) :
    (setById cs i nn blob).map (fun c => c.id) = cs.map (fun c => c.id) := by
  unfold setById
  rw [List.map_map]
  exact List.map_congr_left fun c _ => by
    by_cases hc : c.id = i
    · simp [hc]
    · simp [hc]

/-- Helper: a row whose id differs from the replaced one is untouched by
`setById`. -/
theorem setById_mem_other (cs : List Credential) (i : Nat) (nn : Option Bytes)
    (blob : Bytes) (c' : Credential) (hmem : c' ∈ setById cs i nn blob)
    (hne : c'.id ≠ i) : c' ∈ cs := by
  unfold setById at hmem
  obtain ⟨c0, hc0, hf⟩ := List.mem_map.mp hmem
  subst hf
  by_cases hc : c0.id = i
  · rw [if_pos hc] at hne
    exact absurd hc hne
  · rw [if_neg hc] at hne ⊢
    exact hc0

/-- Helper: `updateCred` preserves the sequence of row ids in both its
commit-success and unique-constraint-failure branches. -/
theorem updateCred_id_map (C : CipherModel) (d : Database) (cred : Credential)
    (newName : Bytes) (newItems : Items) :
    (d.updateCred C cred newName newItems).2.creds.map (fun c => c.id) =
      d.creds.map (fun c => c.id) := by
  unfold Database.updateCred
  dsimp only
  split
  · rfl
  · exact setById_id_map d.creds cred.id (some newName) _

/-- C10: `update` never changes a record's surrogate id — the sequence of
row ids is preserved by every branch (resolution failure, silent no-op,
constraint failure and success) — and when the target is a resolved record,
every row with a different id is left entirely unchanged (only the target's
name and encrypted payload are replaced). -/
theorem c10_update_preserves_id (C : CipherModel) (d : Database)
    (target : CredRef) (newName : Bytes) (newItems : Items) :
    ((d.update C target newName newItems).2.creds.map (fun c => c.id) =
      d.creds.map (fun c => c.id)) ∧
    (∀ c, target = .byRef c →
      ∀ c', c' ∈ (d.update C target newName newItems).2.creds →
        c'.id ≠ c.id → c' ∈ d.creds) := by
  cases target with
  | byRef c =>
    constructor
    · exact updateCred_id_map C d c newName newItems
    · intro c0 hc0 c' hmem hne
      have hc : c = c0 := by injection hc0
      subst hc
      unfold Database.update at hmem
      dsimp only at hmem
      unfold Database.updateCred at hmem
      dsimp only at hmem
      split at hmem
      · exact hmem
      · exact setById_mem_other d.creds c.id (some newName) _ c' hmem hne
  | byName n =>
    constructor
    · unfold Database.update
      dsimp only
      split
      · rfl
      · rfl
      · exact updateCred_id_map C d _ newName newItems
    · intro c0 hc0
      exact absurd hc0 (by intro hx; cases hx)

/-- Witness for C10: concrete two-record store, updating the first by
reference; the id sequence is unchanged and the second record survives
untouched. -/
theorem c10_update_preserves_id_witness :
    ((Database.update modelCipher
        ⟨[5], [⟨0, [7], [1, 2]⟩, ⟨1, [8], [3, 4]⟩], 2, modelRand, 0⟩
        (.byRef ⟨0, [7], [1, 2]⟩) [9] [([3], [4])]).2.creds.map (fun c => c.id) =
      ([⟨0, [7], [1, 2]⟩, ⟨1, [8], [3, 4]⟩] : List Credential).map (fun c => c.id)) ∧
    (⟨1, [8], [3, 4]⟩ : Credential) ∈
      ([⟨0, [7], [1, 2]⟩, ⟨1, [8], [3, 4]⟩] : List Credential) :=
  ⟨(c10_update_preserves_id modelCipher
      ⟨[5], [⟨0, [7], [1, 2]⟩, ⟨1, [8], [3, 4]⟩], 2, modelRand, 0⟩
      (.byRef ⟨0, [7], [1, 2]⟩) [9] [([3], [4])]).1,
    (c10_update_preserves_id modelCipher
      ⟨[5], [⟨0, [7], [1, 2]⟩, ⟨1, [8], [3, 4]⟩], 2, modelRand, 0⟩
      (.byRef ⟨0, [7], [1, 2]⟩) [9] [([3], [4])]).2
      ⟨0, [7], [1, 2]⟩ rfl ⟨1, [8], [3, 4]⟩ (by decide) (by decide)⟩

/-- C4: failure behaviour of `_decrypt`: (a) any blob shorter than 32 bytes
fails; (b) a well-formed blob whose decryption has invalid padding fails;
(c) a well-formed blob whose unpadded bytes fail structural parsing fails
under the JSON flag; (d) a blob produced by `_encrypt` under one session
password fails to decrypt under any different password (ideal assumptions
standing in for "except with negligible probability").  In all four cases
the result is the same single error kind `valueError` — wrong password is
not distinguished from corrupted data. -/
theorem c4_decrypt_failures (C : CipherModel) (hC : C.IsIdeal) :
    (∀ (d : Database) (blob : Bytes) (js : Bool), blob.length < 32 →
      d.decrypt C blob js = .error .valueError) ∧
    (∀ (d : Database) (salt iv ct : Bytes) (js : Bool),
      salt.length = 16 → iv.length = 16 → ct.length % 16 = 0 →
      pkcs7unpad (C.dec (C.kdf d.pswd salt) iv ct) 16 = none →
      d.decrypt C (salt ++ iv ++ ct) js = .error .valueError) ∧
    (∀ (d : Database) (salt iv ct pt : Bytes),
      salt.length = 16 → iv.length = 16 → ct.length % 16 = 0 →
      pkcs7unpad (C.dec (C.kdf d.pswd salt) iv ct) 16 = some pt →
      deserializeItems pt = none →
      d.decrypt C (salt ++ iv ++ ct) true = .error .valueError) ∧
    (∀ (d d' : Database) (data : PlainData) (js : Bool),
      (d.rand d.rndIdx).length = 16 → (d.rand (d.rndIdx + 1)).length = 16 →
      d'.pswd ≠ d.pswd →
      d'.decrypt C (d.encryptData C data).1 js = .error .valueError) := by
  refine ⟨?_, ?_, ?_, ?_⟩
  · intro d blob js h
    unfold Database.decrypt
    dsimp only
    rw [if_pos ?_]
    simp only [List.length_take, List.length_drop]
    omega
  · intro d salt iv ct js hs hiv hmod hunpad
    rw [Database.decrypt_parts C d _ _ _ _ hs hiv]
    rw [if_neg (by omega), hunpad]
  · intro d salt iv ct pt hs hiv hmod hunpad hparse
    rw [Database.decrypt_parts C d _ _ _ _ hs hiv]
    rw [if_neg (by omega), hunpad]
    simp [hparse]
  · intro d d' data js hs hiv hp
    rw [Database.encryptData_fst]
    refine Database.decrypt_enc_wrongKey C hC d' _ _ _ _ js hs hiv ?_
    intro hk
    exact hp (hC.kdf_inj _ _ _ hk.symm)

/-- Witness for C4 at concrete inputs: a 3-byte blob, a well-formed blob
with invalid padding, a well-formed blob unpadding to bytes that fail
parsing, and a blob encrypted under password `[5]` decrypted under `[6]`. -/
theorem c4_decrypt_failures_witness :
    modelCipher.IsIdeal ∧
    Database.decrypt modelCipher ⟨[5], [], 0, modelRand, 0⟩ [1, 2, 3] true =
      .error .valueError ∧
    Database.decrypt modelCipher ⟨[5], [], 0, modelRand, 0⟩
      (modelRand 0 ++ modelRand 1 ++ List.replicate 16 0) true =
      .error .valueError ∧
    Database.decrypt modelCipher ⟨[5], [], 0, modelRand, 0⟩
      (modelRand 0 ++ modelRand 1 ++
        modelCipher.enc (modelCipher.kdf [5] (modelRand 0)) (modelRand 1)
          (pkcs7pad [1] 16)) true =
      .error .valueError ∧
    Database.decrypt modelCipher ⟨[6], [], 0, modelRand, 0⟩
      ((Database.encryptData modelCipher ⟨[5], [], 0, modelRand, 0⟩
        (.dict [([3], [4])])).1) true =
      .error .valueError :=
  ⟨modelCipher_ideal,
    (c4_decrypt_failures modelCipher modelCipher_ideal).1
      ⟨[5], [], 0, modelRand, 0⟩ [1, 2, 3] true (by decide),
    (c4_decrypt_failures modelCipher modelCipher_ideal).2.1
      ⟨[5], [], 0, modelRand, 0⟩ (modelRand 0) (modelRand 1)
      (List.replicate 16 0) true (modelRand_len 0) (modelRand_len 1)
      (by decide) (by decide),
    (c4_decrypt_failures modelCipher modelCipher_ideal).2.2.1
      ⟨[5], [], 0, modelRand, 0⟩ (modelRand 0) (modelRand 1)
      (modelCipher.enc (modelCipher.kdf [5] (modelRand 0)) (modelRand 1)
        (pkcs7pad [1] 16)) [1] (modelRand_len 0) (modelRand_len 1)
      (by rw [modelCipher_ideal.enc_len, pkcs7pad_length]; decide)
      (by rw [modelCipher_ideal.dec_enc, pkcs7unpad_pad])
      (by decide),
    (c4_decrypt_failures modelCipher modelCipher_ideal).2.2.2
      ⟨[5], [], 0, modelRand, 0⟩ ⟨[6], [], 0, modelRand, 0⟩
      (.dict [([3], [4])]) true (modelRand_len 0) (modelRand_len 1)
      (by decide)⟩

/-! ### Salt/IV freshness across all reachable store states -/

/-- The salt stored in a payload blob (bytes `[0:16]`). -/
def saltOf (c : Credential) : Bytes :=
  c.items.take 16

/-- The IV stored in a payload blob (bytes `[16:32]`). -/
def ivOf (c : Credential) : Bytes :=
  (c.items.drop 16).take 16

/-- The randomness source behaves like `get_random_bytes(16)`: every draw is
16 bytes and distinct draws never collide. -/
def GoodRand (d : Database) : Prop :=
  Function.Injective d.rand ∧ ∀ n, (d.rand n).length = 16

/-- Store invariant: every stored payload carries a salt and IV taken from
two consecutive already-consumed random draws; stored salts are pairwise
distinct; row ids are pairwise distinct and below the autoincrement
counter. -/
def Inv (d : Database) : Prop :=
  (∀ c ∈ d.creds, ∃ j, j + 2 ≤ d.rndIdx ∧
    saltOf c = d.rand j ∧ ivOf c = d.rand (j + 1)) ∧
  d.creds.Pairwise (fun a b => saltOf a ≠ saltOf b) ∧
  d.creds.Pairwise (fun a b => a.id ≠ b.id) ∧
  (∀ c ∈ d.creds, c.id < d.nextId)

/-- States reachable from a fresh store through the store operations. -/
inductive Reach (C : CipherModel) : Database → Prop
  | init (pswd : Bytes) (rand : Nat → Bytes) :
      Reach C ⟨pswd, [], 0, rand, 0⟩
  | insert (d : Database) (name : Bytes) (items : Items) :
      Reach C d → Reach C (d.insert C name items).2
  | update (d : Database) (target : CredRef) (newName : Bytes) (newItems : Items) :
      Reach C d → Reach C (d.update C target newName newItems).2
  | delete (d : Database) (target : CredRef) :
      Reach C d → Reach C (d.delete C target).2
  | change (d : Database) (newPswd : Bytes) :
      Reach C d → Reach C (d.change_pswd C newPswd).2

theorem updateCred_rand (C : CipherModel) (d : Database) (cred : Credential)
    (newName : Bytes) (newItems : Items) :
    (d.updateCred C cred newName newItems).2.rand = d.rand := by
  unfold Database.updateCred
  dsimp only
  split <;> rfl

theorem insert_rand (C : CipherModel) (d : Database) (name : Bytes)
    (items : Items) : (d.insert C name items).2.rand = d.rand := by
  unfold Database.insert
  dsimp only
  split <;> rfl

theorem update_rand (C : CipherModel) (d : Database) (target : CredRef)
    (newName : Bytes) (newItems : Items) :
    (d.update C target newName newItems).2.rand = d.rand := by
  unfold Database.update
  cases target with
  | byRef c => exact updateCred_rand C d c newName newItems
  | byName n =>
    dsimp only
    split
    · rfl
    · rfl
    · exact updateCred_rand C d _ newName newItems

theorem delete_rand (C : CipherModel) (d : Database) (target : CredRef) :
    (d.delete C target).2.rand = d.rand := by
  unfold Database.delete
  cases target with
  | byRef c => rfl
  | byName n =>
    dsimp only
    split <;> rfl

theorem reencryptOne_rand (C : CipherModel) (d : Database) (i : Nat)
    (pd : PlainData) : (reencryptOne C d i pd).rand = d.rand :=
  rfl

theorem reencrypt_rand (C : CipherModel) (ps : List (Credential × PlainData)) :
    ∀ (d : Database), (reencrypt C d ps).rand = d.rand := by
  induction ps with
  | nil => intro d; rfl
  | cons p rest ih =>
    intro d
    obtain ⟨c, pd⟩ := p
    show (reencrypt C (reencryptOne C d c.id pd) rest).rand = d.rand
    rw [ih]
    rfl

theorem change_pswd_rand (C : CipherModel) (d : Database) (newPswd : Bytes) :
    (d.change_pswd C newPswd).2.rand = d.rand := by
  unfold Database.change_pswd
  split
  · rfl
  · exact reencrypt_rand C _ _

/-- `GoodRand` transfers along equal randomness streams. -/
theorem goodRand_congr (d d' : Database) (h : d'.rand = d.rand)
    (hG : GoodRand d) : GoodRand d' := by
  unfold GoodRand at hG ⊢
  rw [h]
  exact hG

/-- The invariant survives merely consuming randomness. -/
theorem inv_bump (d : Database) (hI : Inv d) :
    Inv { d with rndIdx := d.rndIdx + 2 } := by
  obtain ⟨h1, h2, h3, h4⟩ := hI
  refine ⟨?_, h2, h3, h4⟩
  intro c hc
  obtain ⟨j, hj, hs, hiv⟩ := h1 c hc
  exact ⟨j, by show j + 2 ≤ d.rndIdx + 2; omega, hs, hiv⟩

/-- Branch characterization of `insert`'s post-state. -/
theorem insert_snd_cases (C : CipherModel) (d : Database) (name : Bytes)
    (items : Items) :
    (d.insert C name items).2 = { d with rndIdx := d.rndIdx + 2 } ∨
    (d.insert C name items).2 = { d with
      creds := d.creds ++
        [⟨d.nextId, name, (d.encryptData C (.dict items)).1⟩],
      nextId := d.nextId + 1, rndIdx := d.rndIdx + 2 } := by
  unfold Database.insert
  dsimp only
  split
  · left; rfl
  · right; rfl

/-- Branch characterization of `updateCred`'s post-state. -/
theorem updateCred_snd_cases (C : CipherModel) (d : Database) (cred : Credential)
    (newName : Bytes) (newItems : Items) :
    (d.updateCred C cred newName newItems).2 = { d with rndIdx := d.rndIdx + 2 } ∨
    (d.updateCred C cred newName newItems).2 = { d with
      creds := setById d.creds cred.id (some newName)
        (d.encryptData C (.dict newItems)).1,
      rndIdx := d.rndIdx + 2 } := by
  unfold Database.updateCred
  dsimp only
  split
  · left; rfl
  · right; rfl

/-- Branch characterization of `update`'s post-state. -/
theorem update_snd_cases (C : CipherModel) (d : Database) (target : CredRef)
    (newName : Bytes) (newItems : Items) :
    (d.update C target newName newItems).2 = d ∨
    ∃ cred, (d.update C target newName newItems).2 =
      (d.updateCred C cred newName newItems).2 := by
  unfold Database.update
  cases target with
  | byRef c => exact Or.inr ⟨c, rfl⟩
  | byName n =>
    dsimp only
    split
    · exact Or.inl rfl
    · exact Or.inl rfl
    · exact Or.inr ⟨_, rfl⟩

/-- Branch characterization of `delete`'s post-state. -/
theorem delete_snd_cases (C : CipherModel) (d : Database) (target : CredRef) :
    (d.delete C target).2 = d ∨
    ∃ i, (d.delete C target).2 =
      { d with creds := d.creds.filter (fun x => x.id ≠ i) } := by
  unfold Database.delete
  cases target with
  | byRef c => exact Or.inr ⟨c.id, rfl⟩
  | byName n =>
    dsimp only
    split
    · exact Or.inl rfl
    · exact Or.inl rfl
    · exact Or.inr ⟨_, rfl⟩

/-- Branch characterization of `change_pswd`'s post-state. -/
theorem change_pswd_snd_cases (C : CipherModel) (d : Database) (newPswd : Bytes) :
    (d.change_pswd C newPswd).2 = d ∨
    ∃ ps, (d.change_pswd C newPswd).2 =
      reencrypt C { d with pswd := newPswd } ps := by
  unfold Database.change_pswd
  split
  · exact Or.inl rfl
  · exact Or.inr ⟨_, rfl⟩

/-- The invariant survives inserting a freshly encrypted row. -/
theorem inv_insert (C : CipherModel) (d : Database) (name : Bytes)
    (items : Items) (hG : GoodRand d) (hI : Inv d) :
    Inv (d.insert C name items).2 := by
  obtain ⟨hGinj, hGlen⟩ := hG
  obtain ⟨h1, h2, h3, h4⟩ := hI
  rcases insert_snd_cases C d name items with hcase | hcase
  · rw [hcase]
    exact inv_bump d ⟨h1, h2, h3, h4⟩
  · rw [hcase]
    rw [Database.encryptData_fst]
    set new : Credential :=
      ⟨d.nextId, name, d.rand d.rndIdx ++ d.rand (d.rndIdx + 1) ++
        C.enc (C.kdf d.pswd (d.rand d.rndIdx)) (d.rand (d.rndIdx + 1))
          (pkcs7pad (dataToBytes (.dict items)) 16)⟩ with hnew
    have hsaltnew : saltOf new = d.rand d.rndIdx := by
      rw [hnew]
      exact blob_salt _ _ _ (hGlen d.rndIdx)
    have hivnew : ivOf new = d.rand (d.rndIdx + 1) := by
      rw [hnew]
      exact blob_iv _ _ _ (hGlen d.rndIdx) (hGlen (d.rndIdx + 1))
    refine ⟨?_, ?_, ?_, ?_⟩
    · intro c hc
      rcases List.mem_append.mp hc with hold | hnw
      · obtain ⟨j, hj, hs, hiv⟩ := h1 c hold
        exact ⟨j, by show j + 2 ≤ d.rndIdx + 2; omega, hs, hiv⟩
      · rw [List.mem_singleton.mp hnw]
        exact ⟨d.rndIdx, by show d.rndIdx + 2 ≤ d.rndIdx + 2; omega, hsaltnew, hivnew⟩
    · refine List.pairwise_append.mpr ⟨h2, List.pairwise_singleton _ _, ?_⟩
      intro a ha b hb
      rw [List.mem_singleton.mp hb, hsaltnew]
      obtain ⟨j, hj, hs, _⟩ := h1 a ha
      rw [hs]
      intro heq
      have := hGinj heq
      omega
    · refine List.pairwise_append.mpr ⟨h3, List.pairwise_singleton _ _, ?_⟩
      intro a ha b hb
      rw [List.mem_singleton.mp hb]
      have := h4 a ha
      show a.id ≠ d.nextId
      omega
    · intro c hc
      rcases List.mem_append.mp hc with hold | hnw
      · have := h4 c hold
        show c.id < d.nextId + 1
        omega
      · rw [List.mem_singleton.mp hnw]
        show d.nextId < d.nextId + 1
        omega

/-- The invariant survives replacing one row's payload with a freshly
encrypted blob (and optionally renaming it). -/
theorem inv_setBlob (d : Database) (P : Bytes) (i : Nat) (nn : Option Bytes)
    (ct : Bytes) (hG : GoodRand d) (hI : Inv d) :
    Inv { pswd := P,
          creds := setById d.creds i nn
            (d.rand d.rndIdx ++ d.rand (d.rndIdx + 1) ++ ct),
          nextId := d.nextId, rand := d.rand, rndIdx := d.rndIdx + 2 } := by
  obtain ⟨hGinj, hGlen⟩ := hG
  obtain ⟨h1, h2, h3, h4⟩ := hI
  set blob : Bytes := d.rand d.rndIdx ++ d.rand (d.rndIdx + 1) ++ ct with hblob
  have hsaltblob : blob.take 16 = d.rand d.rndIdx :=
    blob_salt _ _ _ (hGlen d.rndIdx)
  have hivblob : (blob.drop 16).take 16 = d.rand (d.rndIdx + 1) :=
    blob_iv _ _ _ (hGlen d.rndIdx) (hGlen (d.rndIdx + 1))
  refine ⟨?_, ?_, ?_, ?_⟩
  · intro c hc
    obtain ⟨c0, hc0, hfc⟩ := List.mem_map.mp hc
    by_cases hci : c0.id = i
    · rw [if_pos hci] at hfc
      refine ⟨d.rndIdx, ?_, ?_, ?_⟩
      · show d.rndIdx + 2 ≤ d.rndIdx + 2
        omega
      · rw [← hfc]
        exact hsaltblob
      · rw [← hfc]
        exact hivblob
    · rw [if_neg hci] at hfc
      obtain ⟨j, hj, hs, hiv⟩ := h1 c0 hc0
      rw [← hfc]
      exact ⟨j, by show j + 2 ≤ d.rndIdx + 2; omega, hs, hiv⟩
  · show (d.creds.map _).Pairwise _
    rw [List.pairwise_map]
    have hcomb := List.Pairwise.and h3 h2
    refine hcomb.imp_of_mem ?_
    intro a b ha hb hab
    obtain ⟨hid, hsalt⟩ := hab
    by_cases hai : a.id = i
    · by_cases hbi : b.id = i
      · exact absurd (hai.trans hbi.symm) hid
      · rw [if_pos hai, if_neg hbi]
        have hs1 : saltOf { a with name := nn.getD a.name, items := blob } =
            d.rand d.rndIdx := hsaltblob
        rw [hs1]
        obtain ⟨j, hj, hs, _⟩ := h1 b hb
        rw [hs]
        intro heq
        have := hGinj heq
        omega
    · by_cases hbi : b.id = i
      · rw [if_neg hai, if_pos hbi]
        have hs1 : saltOf { b with name := nn.getD b.name, items := blob } =
            d.rand d.rndIdx := hsaltblob
        rw [hs1]
        obtain ⟨j, hj, hs, _⟩ := h1 a ha
        rw [hs]
        intro heq
        have := hGinj heq
        omega
      · rw [if_neg hai, if_neg hbi]
        exact hsalt
  · show (d.creds.map _).Pairwise _
    rw [List.pairwise_map]
    refine h3.imp_of_mem ?_
    intro a b ha hb hab
    by_cases hai : a.id = i
    · by_cases hbi : b.id = i
      · exact absurd (hai.trans hbi.symm) hab
      · rw [if_pos hai, if_neg hbi]
        show a.id ≠ b.id
        exact hab
    · by_cases hbi : b.id = i
      · rw [if_neg hai, if_pos hbi]
        show a.id ≠ b.id
        exact hab
      · rw [if_neg hai, if_neg hbi]
        exact hab
  · intro c hc
    obtain ⟨c0, hc0, hfc⟩ := List.mem_map.mp hc
    have hlt := h4 c0 hc0
    rw [← hfc]
    by_cases hci : c0.id = i
    · rw [if_pos hci]
      exact hlt
    · rw [if_neg hci]
      exact hlt

/-- The invariant survives removing rows. -/
theorem inv_filter (d : Database) (p : Credential → Bool) (hI : Inv d) :
    Inv { d with creds := d.creds.filter p } := by
  obtain ⟨h1, h2, h3, h4⟩ := hI
  refine ⟨?_, ?_, ?_, ?_⟩
  · intro c hc
    exact h1 c (List.mem_of_mem_filter hc)
  · exact List.Pairwise.sublist (List.filter_sublist _) h2
  · exact List.Pairwise.sublist (List.filter_sublist _) h3
  · intro c hc
    exact h4 c (List.mem_of_mem_filter hc)

theorem inv_updateCred (C : CipherModel) (d : Database) (cred : Credential)
    (newName : Bytes) (newItems : Items) (hG : GoodRand d) (hI : Inv d) :
    Inv (d.updateCred C cred newName newItems).2 := by
  rcases updateCred_snd_cases C d cred newName newItems with h | h
  · rw [h]
    exact inv_bump d hI
  · rw [h, Database.encryptData_fst]
    exact inv_setBlob d d.pswd cred.id (some newName) _ hG hI

theorem inv_update (C : CipherModel) (d : Database) (target : CredRef)
    (newName : Bytes) (newItems : Items) (hG : GoodRand d) (hI : Inv d) :
    Inv (d.update C target newName newItems).2 := by
  rcases update_snd_cases C d target newName newItems with h | ⟨cred, h⟩
  · rw [h]
    exact hI
  · rw [h]
    exact inv_updateCred C d cred newName newItems hG hI

theorem inv_delete (C : CipherModel) (d : Database) (target : CredRef)
    (hI : Inv d) : Inv (d.delete C target).2 := by
  rcases delete_snd_cases C d target with h | ⟨i, h⟩
  · rw [h]
    exact hI
  · rw [h]
    exact inv_filter d _ hI

theorem inv_reencrypt (C : CipherModel) (ps : List (Credential × PlainData)) :
    ∀ d : Database, GoodRand d → Inv d → Inv (reencrypt C d ps) := by
  induction ps with
  | nil =>
    intro d _ hI
    exact hI
  | cons p rest ih =>
    intro d hG hI
    obtain ⟨c, pd⟩ := p
    show Inv (reencrypt C (reencryptOne C d c.id pd) rest)
    refine ih _ (goodRand_congr d _ (reencryptOne_rand C d c.id pd) hG) ?_
    show Inv ⟨d.pswd, setById d.creds c.id none ((d.encryptData C pd).1), d.nextId, d.rand, d.rndIdx + 2⟩
    rw [Database.encryptData_fst]
    exact inv_setBlob d d.pswd c.id none _ hG hI

theorem inv_change_pswd (C : CipherModel) (d : Database) (newPswd : Bytes)
    (hG : GoodRand d) (hI : Inv d) : Inv (d.change_pswd C newPswd).2 := by
  rcases change_pswd_snd_cases C d newPswd with h | ⟨ps, h⟩
  · rw [h]
    exact hI
  · rw [h]
    exact inv_reencrypt C ps { d with pswd := newPswd } hG hI

/-- Every reachable store state satisfies the freshness invariant. -/
theorem reach_inv (C : CipherModel) (d : Database) (hR : Reach C d) :
    GoodRand d → Inv d := by
  induction hR with
  | init pswd rand =>
    intro _
    refine ⟨?_, List.Pairwise.nil, List.Pairwise.nil, ?_⟩
    · intro c hc
      exact absurd hc (List.not_mem_nil c)
    · intro c hc
      exact absurd hc (List.not_mem_nil c)
  | insert d name items hR ih =>
    intro hG
    have hGd : GoodRand d :=
      goodRand_congr _ d (insert_rand C d name items).symm hG
    exact inv_insert C d name items hGd (ih hGd)
  | update d target newName newItems hR ih =>
    intro hG
    have hGd : GoodRand d :=
      goodRand_congr _ d (update_rand C d target newName newItems).symm hG
    exact inv_update C d target newName newItems hGd (ih hGd)
  | delete d target hR ih =>
    intro hG
    have hGd : GoodRand d :=
      goodRand_congr _ d (delete_rand C d target).symm hG
    exact inv_delete C d target (ih hGd)
  | change d newPswd hR ih =>
    intro hG
    have hGd : GoodRand d :=
      goodRand_congr _ d (change_pswd_rand C d newPswd).symm hG
    exact inv_change_pswd C d newPswd hGd (ih hGd)

/-- C6: under distinct 16-byte random draws, (i) in every reachable store
state no two stored payloads share a salt/IV pair — even when identical
plaintext was encrypted twice — and (ii) two successive `_encrypt` calls on
the same state (any plaintexts, identical included) return different
blobs. -/
theorem c6_fresh_salt_iv (C : CipherModel) (d : Database) (hR : Reach C d)
    (hinj : Function.Injective d.rand)
    (hlen : ∀ n, (d.rand n).length = 16) :
    d.creds.Pairwise (fun a b => (saltOf a, ivOf a) ≠ (saltOf b, ivOf b)) ∧
    ∀ x y : PlainData,
      (d.encryptData C x).1 ≠ ((d.encryptData C x).2.encryptData C y).1 := by
  have hI := reach_inv C d hR ⟨hinj, hlen⟩
  constructor
  · exact hI.2.1.imp (fun h => fun hpair => h (congrArg Prod.fst hpair))
  · intro x y heq
    have h1 : (d.encryptData C x).1.take 16 = d.rand d.rndIdx := by
      rw [Database.encryptData_fst]
      exact blob_salt _ _ _ (hlen _)
    have h2 : ((d.encryptData C x).2.encryptData C y).1.take 16 =
        d.rand (d.rndIdx + 2) := by
      rw [Database.encryptData_fst]
      exact blob_salt _ _ _ (hlen _)
    rw [heq, h2] at h1
    have := hinj h1
    omega

/-- Witness for C6: two inserts from a fresh store under the concrete model
and an injective 16-byte random stream. -/
theorem c6_fresh_salt_iv_witness :
    Function.Injective modelRand ∧ (∀ n, (modelRand n).length = 16) ∧
    ((Database.insert modelCipher
        (Database.insert modelCipher ⟨[5], [], 0, modelRand, 0⟩
          [1] [([2], [3])]).2
        [2] [([4], [5])]).2).creds.Pairwise
      (fun a b => (saltOf a, ivOf a) ≠ (saltOf b, ivOf b)) := by
  have hrand : ((Database.insert modelCipher
      (Database.insert modelCipher ⟨[5], [], 0, modelRand, 0⟩
        [1] [([2], [3])]).2
      [2] [([4], [5])]).2).rand = modelRand := by
    rw [insert_rand, insert_rand]
  refine ⟨modelRand_inj, modelRand_len,
    (c6_fresh_salt_iv modelCipher _ ?_ ?_ ?_).1⟩
  · exact Reach.insert _ [2] [([4], [5])]
      (Reach.insert _ [1] [([2], [3])] (Reach.init [5] modelRand))
  · rw [hrand]
    exact modelRand_inj
  · rw [hrand]
    exact modelRand_len

/-! ### Password rotation -/

/-- A successful `get_all` pairs exactly the stored rows, in order, with
their decrypted payloads. -/
theorem goGetAll_fst (C : CipherModel) (d : Database) :
    ∀ (l : List Credential) (ps : List (Credential × PlainData)),
      goGetAll C d l = .ok ps → ps.map Prod.fst = l := by
  intro l
  induction l with
  | nil =>
    intro ps h
    simp only [goGetAll] at h
    cases h
    rfl
  | cons c rest ih =>
    intro ps h
    simp only [goGetAll] at h
    split at h
    · cases h
    · split at h
      · cases h
      · cases h
        simp only [List.map_cons]
        rw [ih _ (by assumption)]

/-- A successful `get_all` only produces parsed item maps. -/
theorem goGetAll_dict (C : CipherModel) (d : Database) :
    ∀ (l : List Credential) (ps : List (Credential × PlainData)),
      goGetAll C d l = .ok ps → ∀ p ∈ ps, ∃ m, p.2 = .dict m := by
  intro l
  induction l with
  | nil =>
    intro ps h p hp
    simp only [goGetAll] at h
    cases h
    exact absurd hp (List.not_mem_nil p)
  | cons c rest ih =>
    intro ps h p hp
    simp only [goGetAll] at h
    split at h
    · cases h
    next pd hdec =>
      split at h
      · cases h
      next ps0 hrest =>
        cases h
        rcases List.mem_cons.mp hp with hphead | hptail
        · rw [hphead]
          exact Database.decrypt_true_dict C d c.items pd hdec
        · exact ih ps0 hrest p hptail

/-- A row whose id is the replaced one carries the new payload after
`setById`. -/
theorem setById_mem_eq (cs : List Credential) (i : Nat) (nn : Option Bytes)
    (blob : Bytes) (c' : Credential) (hmem : c' ∈ setById cs i nn blob)
    (hid : c'.id = i) : c'.items = blob := by
  unfold setById at hmem
  obtain ⟨c0, hc0, hf⟩ := List.mem_map.mp hmem
  subst hf
  by_cases hci : c0.id = i
  · rw [if_pos hci]
  · rw [if_neg hci] at hid ⊢
    exact absurd hid hci

/-- `change_pswd` on a store whose rows all decrypt: adopt the new password,
re-encrypt every row, one commit. -/
theorem change_pswd_ok (C : CipherModel) (d : Database) (newPswd : Bytes)
    (ps : List (Credential × PlainData)) (hok : d.get_all C = .ok ps) :
    d.change_pswd C newPswd = (.ok (), reencrypt C { d with pswd := newPswd } ps) := by
  unfold Database.change_pswd
  rw [hok]

/-- Correctness of the `change_pswd` re-encryption fold: the session
password and row-id sequence are preserved; every row listed in `ps` ends up
holding a fresh blob encrypting its decrypted payload under the fold-time
session password; rows not listed are untouched. -/
theorem reencrypt_spec (C : CipherModel) :
    ∀ (ps : List (Credential × PlainData)) (d : Database),
    (∀ n, (d.rand n).length = 16) →
    ps.Pairwise (fun a b => a.1.id ≠ b.1.id) →
    (reencrypt C d ps).pswd = d.pswd ∧
    (reencrypt C d ps).creds.map (fun c => c.id) = d.creds.map (fun c => c.id) ∧
    (∀ p ∈ ps, ∀ c', c' ∈ (reencrypt C d ps).creds → c'.id = p.1.id →
      ∃ salt iv, salt.length = 16 ∧ iv.length = 16 ∧
        c'.items = salt ++ iv ++
          C.enc (C.kdf d.pswd salt) iv (pkcs7pad (dataToBytes p.2) 16)) ∧
    (∀ c', c' ∈ (reencrypt C d ps).creds → (∀ p ∈ ps, p.1.id ≠ c'.id) →
      c' ∈ d.creds) := by
  intro ps
  induction ps with
  | nil =>
    intro d hlen hpair
    exact ⟨rfl, rfl, fun p hp => absurd hp (List.not_mem_nil p),
      fun c' hc' _ => hc'⟩
  | cons p rest ih =>
    intro d hlen hpair
    obtain ⟨c, pd⟩ := p
    have hhead := (List.pairwise_cons.mp hpair).1
    have hpairrest := (List.pairwise_cons.mp hpair).2
    have hshow : reencrypt C d ((c, pd) :: rest) =
        reencrypt C (reencryptOne C d c.id pd) rest := rfl
    have hlen2 : ∀ n, ((reencryptOne C d c.id pd).rand n).length = 16 := hlen
    obtain ⟨ihpswd, ihids, ihgood, ihpres⟩ :=
      ih (reencryptOne C d c.id pd) hlen2 hpairrest
    have hd2pswd : (reencryptOne C d c.id pd).pswd = d.pswd := rfl
    have hd2ids : (reencryptOne C d c.id pd).creds.map (fun x => x.id) =
        d.creds.map (fun x => x.id) :=
      setById_id_map d.creds c.id none _
    refine ⟨?_, ?_, ?_, ?_⟩
    · rw [hshow, ihpswd]
      exact hd2pswd
    · rw [hshow, ihids, hd2ids]
    · intro q hq c' hc' hid
      rw [hshow] at hc'
      rcases List.mem_cons.mp hq with hqhead | hqtail
      · subst hqhead
        have hc'd2 : c' ∈ (reencryptOne C d c.id pd).creds := by
          refine ihpres c' hc' ?_
          intro q' hq'
          rw [hid]
          exact (hhead q' hq').symm
        have hitems : c'.items = (d.encryptData C pd).1 :=
          setById_mem_eq d.creds c.id none _ c' hc'd2 hid
        refine ⟨d.rand d.rndIdx, d.rand (d.rndIdx + 1), hlen _, hlen _, ?_⟩
        rw [hitems, Database.encryptData_fst]
      · obtain ⟨salt, iv, hs, hiv, hit⟩ := ihgood q hqtail c' hc' hid
        exact ⟨salt, iv, hs, hiv, hit⟩
    · intro c' hc' hnone
      rw [hshow] at hc'
      have hc'd2 : c' ∈ (reencryptOne C d c.id pd).creds :=
        ihpres c' hc' (fun q hq => hnone q (List.mem_cons_of_mem _ hq))
      refine setById_mem_other d.creds c.id none _ c' hc'd2 ?_
      intro h
      exact hnone (c, pd) (List.mem_cons_self _ _) (by rw [h])

/-- C2 (amended): the change-password command first writes the new
authentication hash (`create_pswd` runs before `change_pswd` in `main.py`),
then `change_pswd` decrypts every record under the current session password,
adopts the new password, re-encrypts every record under it with a fresh
salt/IV per record and persists them in one final commit.  Afterwards the
stored hash and session password are the new ones, every record's id is
unchanged, every record decrypts — under the new password — back to its
original item map, and decrypting any record under the old password fails
(ideal assumptions standing in for the negligible-probability caveat). -/
theorem c2_change_password (C : CipherModel) (hC : C.IsIdeal) (H : Bytes → Bytes)
    (v : Vault) (newP : Bytes) (ps : List (Credential × PlainData))
    (hok : v.db.get_all C = .ok ps)
    (hlen : ∀ n, (v.db.rand n).length = 16)
    (hids : v.db.creds.Pairwise (fun a b => a.id ≠ b.id))
    (hP : newP ≠ v.db.pswd) :
    (change_password_command C H v newP).1 = .ok () ∧
    (change_password_command C H v newP).2.storedHash = H newP ∧
    (change_password_command C H v newP).2.db.pswd = newP ∧
    (change_password_command C H v newP).2.db.creds.map (fun c => c.id) =
      v.db.creds.map (fun c => c.id) ∧
    (∀ p ∈ ps, ∀ c', c' ∈ (change_password_command C H v newP).2.db.creds →
      c'.id = p.1.id →
      (change_password_command C H v newP).2.db.decrypt C c'.items true = .ok p.2) ∧
    (∀ c', c' ∈ (change_password_command C H v newP).2.db.creds →
      ∀ dOld : Database, dOld.pswd = v.db.pswd →
        dOld.decrypt C c'.items true = .error .valueError) := by
  have hcmd : change_password_command C H v newP =
      (.ok (), { db := reencrypt C { v.db with pswd := newP } ps,
                 storedHash := H newP }) := by
    unfold change_password_command createPswdHash
    dsimp only
    rw [change_pswd_ok C v.db newP ps hok]
  have hfst : ps.map Prod.fst = v.db.creds :=
    goGetAll_fst C v.db v.db.creds ps hok
  have hdicts : ∀ p ∈ ps, ∃ m, p.2 = .dict m :=
    goGetAll_dict C v.db v.db.creds ps hok
  have hpairps : ps.Pairwise (fun a b => a.1.id ≠ b.1.id) := by
    have h2 : (ps.map Prod.fst).Pairwise (fun a b => a.id ≠ b.id) := by
      rw [hfst]
      exact hids
    rw [List.pairwise_map] at h2
    exact h2
  have hlen1 : ∀ n, (({ v.db with pswd := newP } : Database).rand n).length = 16 :=
    hlen
  obtain ⟨hspswd, hsids, hsgood, _⟩ :=
    reencrypt_spec C ps { v.db with pswd := newP } hlen1 hpairps
  rw [hcmd]
  refine ⟨rfl, rfl, ?_, ?_, ?_, ?_⟩
  · show (reencrypt C { v.db with pswd := newP } ps).pswd = newP
    rw [hspswd]
  · show (reencrypt C { v.db with pswd := newP } ps).creds.map (fun c => c.id) =
      v.db.creds.map (fun c => c.id)
    rw [hsids]
  · intro p hp c' hc' hid
    obtain ⟨salt, iv, hs, hiv, hit⟩ := hsgood p hp c' hc' hid
    obtain ⟨m, hm⟩ := hdicts p hp
    show Database.decrypt C (reencrypt C { v.db with pswd := newP } ps)
      c'.items true = .ok p.2
    rw [Database.decrypt_pswd_eq C _ { v.db with pswd := newP } hspswd c'.items true]
    rw [hit, hm]
    exact Database.decrypt_enc_dict C hC _ salt iv m hs hiv
  · intro c' hc' dOld holdp
    have hidmem : c'.id ∈ ps.map (fun p => p.1.id) := by
      have h1 : c'.id ∈ (reencrypt C { v.db with pswd := newP } ps).creds.map
          (fun c => c.id) :=
        List.mem_map_of_mem _ hc'
      rw [hsids] at h1
      have h2 : c'.id ∈ (ps.map Prod.fst).map (fun c => c.id) := by
        rw [hfst]
        exact h1
      rw [List.map_map] at h2
      exact h2
    obtain ⟨p, hp, hpid⟩ := List.mem_map.mp hidmem
    obtain ⟨salt, iv, hs, hiv, hit⟩ := hsgood p hp c' hc' hpid.symm
    rw [hit]
    refine Database.decrypt_enc_wrongKey C hC dOld salt iv _ _ true hs hiv ?_
    intro hk
    have hpq := hC.kdf_inj salt _ _ hk
    rw [holdp] at hpq
    exact hP hpq

/-- A concrete payload blob encrypted under password `[5]` with the first
two model random draws, used by the rotation witness. -/
def witnessBlob : Bytes :=
  modelRand 0 ++ modelRand 1 ++
    modelCipher.enc (modelCipher.kdf [5] (modelRand 0)) (modelRand 1)
      (pkcs7pad (serializeItems [([3], [4])]) 16)

/-- A concrete one-record store under session password `[5]`. -/
def witnessDb : Database :=
  ⟨[5], [⟨0, [7], witnessBlob⟩], 1, modelRand, 2⟩

theorem get_all_eq (C : CipherModel) (d : Database) :
    d.get_all C = goGetAll C d d.creds :=
  rfl

theorem goGetAll_nil (C : CipherModel) (d : Database) :
    goGetAll C d [] = .ok [] :=
  rfl

theorem goGetAll_cons (C : CipherModel) (d : Database) (c : Credential)
    (rest : List Credential) :
    goGetAll C d (c :: rest) =
      match d.decrypt C c.items true with
      | .error e => .error e
      | .ok pd =>
        match goGetAll C d rest with
        | .error e => .error e
        | .ok ps => .ok ((c, pd) :: ps) :=
  rfl

theorem witnessDb_get_all :
    witnessDb.get_all modelCipher =
      .ok [(⟨0, [7], witnessBlob⟩, .dict [([3], [4])])] := by
  have hdec : Database.decrypt modelCipher witnessDb witnessBlob true =
      .ok (.dict [([3], [4])]) :=
    Database.decrypt_enc_dict modelCipher modelCipher_ideal witnessDb
      (modelRand 0) (modelRand 1) [([3], [4])] (modelRand_len 0) (modelRand_len 1)
  rw [get_all_eq]
  rw [show witnessDb.creds = [⟨0, [7], witnessBlob⟩] from rfl]
  rw [goGetAll_cons]
  rw [show (⟨0, [7], witnessBlob⟩ : Credential).items = witnessBlob from rfl]
  rw [hdec, goGetAll_nil]

/-- Witness for C2: rotating the one-record store from password `[5]` to
`[6]` under the concrete model. -/
theorem c2_change_password_witness :
    modelCipher.IsIdeal ∧
    witnessDb.get_all modelCipher =
      .ok [(⟨0, [7], witnessBlob⟩, .dict [([3], [4])])] ∧
    ([6] : Bytes) ≠ witnessDb.pswd ∧
    (change_password_command modelCipher modelHash ⟨witnessDb, modelHash [5]⟩
      [6]).1 = .ok () ∧
    (change_password_command modelCipher modelHash ⟨witnessDb, modelHash [5]⟩
      [6]).2.storedHash = modelHash [6] ∧
    (change_password_command modelCipher modelHash ⟨witnessDb, modelHash [5]⟩
      [6]).2.db.pswd = [6] :=
  ⟨modelCipher_ideal, witnessDb_get_all, by decide,
    (c2_change_password modelCipher modelCipher_ideal modelHash
      ⟨witnessDb, modelHash [5]⟩ [6] [(⟨0, [7], witnessBlob⟩, .dict [([3], [4])])]
      witnessDb_get_all modelRand_len
      (List.pairwise_singleton _ _) (by decide)).1,
    (c2_change_password modelCipher modelCipher_ideal modelHash
      ⟨witnessDb, modelHash [5]⟩ [6] [(⟨0, [7], witnessBlob⟩, .dict [([3], [4])])]
      witnessDb_get_all modelRand_len
      (List.pairwise_singleton _ _) (by decide)).2.1,
    (c2_change_password modelCipher modelCipher_ideal modelHash
      ⟨witnessDb, modelHash [5]⟩ [6] [(⟨0, [7], witnessBlob⟩, .dict [([3], [4])])]
      witnessDb_get_all modelRand_len
      (List.pairwise_singleton _ _) (by decide)).2.2.1⟩

/-- Counterexample to C2 as stated: the claim orders the steps as "persists
the updated payloads, then updates the stored authentication hash, and
finally adopts newP as the session password", but in
`change_password_command` the very first step (`create_pswd`) writes the new
hash while every stored payload and the session password are still the old
ones — the hash update precedes both payload persistence and password
adoption. -/
theorem c2_counterexample :
    (createPswdHash modelHash ⟨witnessDb, modelHash [5]⟩ [6]).storedHash =
      modelHash [6] ∧
    (createPswdHash modelHash ⟨witnessDb, modelHash [5]⟩ [6]).db = witnessDb ∧
    (createPswdHash modelHash ⟨witnessDb, modelHash [5]⟩ [6]).db.pswd = [5] :=
  ⟨rfl, rfl, rfl⟩

end Safe
